import Mathlib

/-!
# Verification of the conversationai-moderator-reddit core

A shallow embedding, in Lean 4, of the rule-evaluation and batched
reconciliation engine of the `perspective_reddit_bot` package, together
with theorems settling the specification claims about it.

Conventions of the embedding:
* Python dictionaries that are iterated in insertion order are embedded
  as association lists (`List (key × value)`); `d[k]` lookup is
  `List.lookup` (first match).
* Python floats (model scores, thresholds) are embedded as `ℚ`; the
  claims under scrutiny only use ordering, never rounding.
* Wall-clock instants and time deltas are embedded as `ℤ` (seconds);
  the claims only use ordering and subtraction.
* Functions that can raise return `Except` / sum-like result types; the
  error value records which `raise` fired.
-/

/-! ## Values stored in JSON record dictionaries -/

/-- A JSON-ish scalar value, as stored in the record dictionaries that the
reconciliation pipeline manipulates. -/
inductive Val where
  | str (s : String)
  | int (n : ℤ)
  | bool (b : Bool)
deriving DecidableEq

/-- Python truthiness of a `Val` (`if not comment_id` style checks). -/
def Val.falsy : Val → Bool
  | .str s => s = ""
  | .int n => n = 0
  | .bool b => !b

/-! ## perspective_rule.py -/

/-- `REPORT_ACTION` constant of perspective_rule.py. -/
def REPORT_ACTION : String := "report"

/-- `NOOP_ACTION` constant of perspective_rule.py. -/
def NOOP_ACTION : String := "noop"

/-- A model predicate of a rule: the dict entry
`model: "comparator threshold"` of `Rule.model_rules`, embedded after the
`comparison.split()` / `float(threshold)` parse performed inside
`check_model_rules`.  The comparator is kept as a raw string, exactly as
in the source, so that invalid comparators are representable. -/
abbrev ModelPred := String × String × ℚ

/-- A comment-feature predicate of a rule: one entry of
`Rule.comment_feature_rules` (feature name, expected boolean value). -/
abbrev FeatureRule := String × Bool

/-- A score map: the `model_scores` dict passed to `check_model_rules`. -/
abbrev ScoreMap := List (String × ℚ)

/-- The fields of a reddit comment that rule evaluation reads
(`comment.link_id`, `comment.parent_id`). -/
structure Comment where
  link_id : String
  parent_id : String
deriving DecidableEq

/-- Errors that `check_model_rules` can raise: `model_scores[model]`
raises a `KeyError` for an absent model (the spec calls this
`MissingScoreError`), and `Rule._compare` raises a `ValueError` for a
comparator other than `>` or `<`. -/
inductive EvalError where
  | missingScore (model : String)
  | badComparator (comparator : String)
deriving DecidableEq

/-- The `Rule` object of perspective_rule.py (the fields assigned by
`Rule.__init__`; `rule_strings` / `rule_description` are derived purely
for display and are reconstructed by `Rule.init` below). -/
structure Rule where
  name : String
  model_rules : List ModelPred
  comment_feature_rules : List FeatureRule
  action_name : String
  report_reason : Option String
deriving DecidableEq

/-- `Rule._compare`: strict `>` / `<`, any other comparator raises
`ValueError` (at evaluation time). -/
def compareScore (score : ℚ) (comparator : String) (threshold : ℚ) :
    Except EvalError Bool :=
  if comparator = ">" then .ok (score > threshold)
  else if comparator = "<" then .ok (score < threshold)
  else .error (.badComparator comparator)

/-- The first loop of `Rule.check_model_rules`:
`state = state and self._compare(model_scores[model], comparator, float(threshold))`.
Python `and` short-circuits, so once `state` is `False` neither the
`model_scores[model]` lookup nor `_compare` is evaluated. -/
def checkModelRulesAux (scores : ScoreMap) :
    List ModelPred → Bool → Except EvalError Bool
  | [], state => .ok state
  | (model, comparator, threshold) :: rest, state =>
    if state then
      match scores.lookup model with
      | none => .error (.missingScore model)
      | some sc =>
        match compareScore sc comparator threshold with
        | .error e => .error e
        | .ok b => checkModelRulesAux scores rest b
    else
      checkModelRulesAux scores rest false

/-- The second loop of `Rule.check_model_rules`: only the feature
`toplevel_only` with a truthy value constrains the result
(`state = state and (comment.link_id == comment.parent_id)`); every
other feature entry is ignored. -/
def checkFeatureRules (comment : Comment) :
    List FeatureRule → Bool → Bool
  | [], state => state
  | (feature, feature_value) :: rest, state =>
    if feature = "toplevel_only" ∧ feature_value then
      checkFeatureRules comment rest
        (state && (comment.link_id = comment.parent_id : Bool))
    else
      checkFeatureRules comment rest state

/-- `Rule.check_model_rules`: the model-predicate loop followed by the
comment-feature loop. -/
def Rule.check_model_rules (r : Rule) (model_scores : ScoreMap)
    (comment : Comment) : Except EvalError Bool :=
  match checkModelRulesAux model_scores r.model_rules true with
  | .error e => .error e
  | .ok state => .ok (checkFeatureRules comment r.comment_feature_rules state)

/-- Specification predicate: a single model predicate holds for a score
map (the score is present and the strict comparison is satisfied). -/
def modelPredHolds (scores : ScoreMap) : ModelPred → Bool
  | (model, comparator, threshold) =>
    match scores.lookup model with
    | none => false
    | some sc =>
      if comparator = ">" then decide (sc > threshold)
      else if comparator = "<" then decide (sc < threshold)
      else false

/-- Specification predicate: a feature predicate holds for a comment
(under the code semantics only `toplevel_only: true` constrains). -/
def featurePredHolds (comment : Comment) : FeatureRule → Bool
  | (feature, feature_value) =>
    if feature = "toplevel_only" ∧ feature_value then
      (comment.link_id = comment.parent_id : Bool)
    else
      true

/-! ### Supporting lemmas for rule evaluation -/

theorem checkModelRulesAux_false (scores : ScoreMap) :
    ∀ preds : List ModelPred, checkModelRulesAux scores preds false = .ok false := by
  intro preds
  induction preds with
  | nil => rfl
  | cons p rest ih =>
    obtain ⟨m, c, t⟩ := p
    simpa [checkModelRulesAux] using ih

theorem checkModelRulesAux_all (scores : ScoreMap) (preds : List ModelPred)
    (hc : ∀ p ∈ preds, p.2.1 = ">" ∨ p.2.1 = "<")
    (hp : ∀ p ∈ preds, (scores.lookup p.1).isSome) :
    checkModelRulesAux scores preds true = .ok (preds.all (modelPredHolds scores)) := by
  induction preds with
  | nil => rfl
  | cons p rest ih =>
    obtain ⟨m, c, t⟩ := p
    have hcp := hc (m, c, t) (List.mem_cons_self _ _)
    have hpp := hp (m, c, t) (List.mem_cons_self _ _)
    obtain ⟨sc, hsc⟩ := Option.isSome_iff_exists.mp hpp
    have ihr := ih (fun p hp' => hc p (List.mem_cons_of_mem _ hp'))
      (fun p hp' => hp p (List.mem_cons_of_mem _ hp'))
    rcases hcp with h | h
    · subst h
      by_cases hgt : sc > t
      · simp [checkModelRulesAux, hsc, compareScore, hgt, modelPredHolds, ihr]
      · simp [checkModelRulesAux, hsc, compareScore, hgt, modelPredHolds,
          checkModelRulesAux_false]
    · subst h
      by_cases hlt : sc < t
      · simp [checkModelRulesAux, hsc, compareScore, hlt, modelPredHolds, ihr]
      · simp [checkModelRulesAux, hsc, compareScore, hlt, modelPredHolds,
          checkModelRulesAux_false]

theorem checkFeatureRules_all (comment : Comment) (feats : List FeatureRule) :
    ∀ state : Bool, checkFeatureRules comment feats state
      = (state && feats.all (featurePredHolds comment)) := by
  induction feats with
  | nil => intro state; simp [checkFeatureRules]
  | cons f rest ih =>
    intro state
    obtain ⟨name, value⟩ := f
    by_cases hf : name = "toplevel_only" ∧ value
    · simp only [checkFeatureRules, if_pos hf, ih, featurePredHolds, List.all_cons]
      simp [if_pos hf, Bool.and_assoc]
    · simp only [checkFeatureRules, if_neg hf, ih, featurePredHolds, List.all_cons]
      simp [if_neg hf]

theorem checkModelRulesAux_append_of_holds (scores : ScoreMap)
    (pre : List ModelPred) (rest : List ModelPred)
    (hpre : ∀ p ∈ pre, modelPredHolds scores p = true) :
    checkModelRulesAux scores (pre ++ rest) true
      = checkModelRulesAux scores rest true := by
  induction pre with
  | nil => rfl
  | cons p tl ih =>
    obtain ⟨m, c, t⟩ := p
    have h := hpre (m, c, t) (List.mem_cons_self _ _)
    have ihtl := ih fun p hp => hpre p (List.mem_cons_of_mem _ hp)
    cases hl : scores.lookup m with
    | none => simp [modelPredHolds, hl] at h
    | some sc =>
      simp only [modelPredHolds, hl] at h
      by_cases hc : c = ">"
      · have hgt : decide (sc > t) = true := by simpa [hc] using h
        simpa [checkModelRulesAux, hl, compareScore, hc, hgt] using ihtl
      · by_cases hc' : c = "<"
        · have hlt : decide (sc < t) = true := by simpa [hc, hc'] using h
          simpa [checkModelRulesAux, hl, compareScore, hc, hc', hlt] using ihtl
        · simp [hc, hc'] at h

theorem all_featurePredHolds_filter (comment : Comment) (feats : List FeatureRule) :
    (feats.filter (fun p => p.1 == "toplevel_only" && p.2)).all (featurePredHolds comment)
      = feats.all (featurePredHolds comment) := by
  induction feats with
  | nil => rfl
  | cons f rest ih =>
    obtain ⟨n, v⟩ := f
    by_cases hn : n = "toplevel_only"
    · subst hn
      cases v <;> simp [List.filter_cons, featurePredHolds, ih]
    · simp [List.filter_cons, featurePredHolds, hn, ih]

/-- C1: rule evaluation is the conjunction of its predicates.  For every
`Rule` with a non-empty list of model predicates whose comparators are
`>` or `<`, and every `ScoreMap` containing all referenced models,
`check_model_rules` succeeds and returns `true` iff every model
predicate holds (`>` strictly greater, `<` strictly less) and every
feature predicate holds; in particular, for a rule with the single
predicate `(m, ">", t)` and no feature rules, it returns `s[m] > t`. -/
theorem claim_C1_rule_eval_conjunction (r : Rule) (scores : ScoreMap)
    (comment : Comment)
    (_hne : r.model_rules ≠ [])
    (hcomp : ∀ p ∈ r.model_rules, p.2.1 = ">" ∨ p.2.1 = "<")
    (hpresent : ∀ p ∈ r.model_rules, (scores.lookup p.1).isSome) :
    r.check_model_rules scores comment
      = .ok (r.model_rules.all (modelPredHolds scores)
             && r.comment_feature_rules.all (featurePredHolds comment))
    ∧ (∀ m t sc, r.model_rules = [(m, ">", t)] → r.comment_feature_rules = [] →
        scores.lookup m = some sc →
        r.check_model_rules scores comment = .ok (decide (sc > t))) := by
  have hmain : r.check_model_rules scores comment
      = .ok (r.model_rules.all (modelPredHolds scores)
             && r.comment_feature_rules.all (featurePredHolds comment)) := by
    unfold Rule.check_model_rules
    rw [checkModelRulesAux_all scores r.model_rules hcomp hpresent]
    simp [checkFeatureRules_all]
  refine ⟨hmain, fun m t sc hm hf hsc => ?_⟩
  rw [hmain, hm, hf]
  simp [modelPredHolds, hsc]

/-- Witness for C1 at a concrete rule, score map and comment. -/
theorem claim_C1_rule_eval_conjunction_witness :
    (Rule.mk "hi_tox" [("TOXICITY", ">", (5:ℚ))] [] "report" none).check_model_rules
        [("TOXICITY", (9:ℚ))] (Comment.mk "L" "L") = .ok true := by
  have h := claim_C1_rule_eval_conjunction
    (Rule.mk "hi_tox" [("TOXICITY", ">", (5:ℚ))] [] "report" none)
    [("TOXICITY", (9:ℚ))] (Comment.mk "L" "L")
    (by decide) (by decide) (by decide)
  exact h.1.trans (congrArg Except.ok (by decide))

theorem checkFeatureRules_filter (comment : Comment) (feats : List FeatureRule)
    (state : Bool) :
    checkFeatureRules comment
        (feats.filter (fun p => p.1 == "toplevel_only" && p.2)) state
      = checkFeatureRules comment feats state := by
  rw [checkFeatureRules_all, checkFeatureRules_all, all_featurePredHolds_filter]

/-- C10: only `toplevel_only: true` feature entries constrain evaluation.
For every rule, score map and comment, `check_model_rules` returns the
same result as for the identical rule whose comment-feature entries are
filtered down to the `toplevel_only ↦ true` ones: entries with value
`false` and entries with unrecognized names have no effect. -/
theorem claim_C10_only_toplevel_true_matters (r : Rule) (scores : ScoreMap)
    (comment : Comment) :
    (Rule.mk r.name r.model_rules
        (r.comment_feature_rules.filter (fun p => p.1 == "toplevel_only" && p.2))
        r.action_name r.report_reason).check_model_rules scores comment
      = r.check_model_rules scores comment := by
  unfold Rule.check_model_rules
  cases h : checkModelRulesAux scores r.model_rules true with
  | error e => simp [h]
  | ok state => simp [h, checkFeatureRules_filter]

/-- C6 counterexample: the claim says that a score map lacking a model
referenced by the rule always makes `check_model_rules` fail with a
missing-score error; but Python's `and` short-circuits, so when an
earlier predicate already evaluated to `False` the missing model is
never looked up and the call returns `False` instead of raising.  Here
the rule references models `"a"` and `"b"`, `"b"` is absent from the
score map, and yet evaluation returns `ok false`. -/
theorem claim_C6_counterexample :
    (([("a", (3:ℚ))] : ScoreMap).lookup "b" = none)
    ∧ (Rule.mk "r" [("a", ">", (5:ℚ)), ("b", ">", (5:ℚ))] [] "report"
        none).check_model_rules [("a", (3:ℚ))] (Comment.mk "L" "L")
      = .ok false :=
  ⟨rfl, rfl⟩

/-- C6 amended: a missing score aborts evaluation iff the lookup is
reached.  If the score map lacks model `m`, and every model predicate
listed before the first `m`-predicate evaluates to `true`, then
`check_model_rules` fails with the missing-score error for `m`;
otherwise (some earlier predicate already `false`) the short-circuit
skips the lookup and the call returns a boolean. -/
theorem claim_C6_missing_score_when_reached
    (name : String) (feats : List FeatureRule) (act : String)
    (rr : Option String) (pre rest : List ModelPred) (m c : String) (t : ℚ)
    (scores : ScoreMap) (comment : Comment)
    (hmiss : scores.lookup m = none)
    (hpre : ∀ p ∈ pre, modelPredHolds scores p = true) :
    (Rule.mk name (pre ++ (m, c, t) :: rest) feats act rr).check_model_rules
        scores comment = .error (.missingScore m) := by
  unfold Rule.check_model_rules
  rw [show (Rule.mk name (pre ++ (m, c, t) :: rest) feats act rr).model_rules
      = pre ++ (m, c, t) :: rest from rfl]
  rw [checkModelRulesAux_append_of_holds scores pre _ hpre]
  simp [checkModelRulesAux, hmiss]

/-- Witness for the amended C6 at a concrete rule and score map. -/
theorem claim_C6_missing_score_when_reached_witness :
    (Rule.mk "r" [("a", ">", (2:ℚ)), ("b", "<", (5:ℚ))] [] "report"
        none).check_model_rules [("a", (4:ℚ))] (Comment.mk "L" "L")
      = .error (.missingScore "b") :=
  claim_C6_missing_score_when_reached "r" [] "report" none
    [("a", ">", (2:ℚ))] [] "b" "<" ((5:ℚ)) [("a", (4:ℚ))]
    (Comment.mk "L" "L") (by decide) (by decide)

/-! ## config.py (rule loading) and Rule.__init__ -/

/-- `Rule.__init__`: validates that `model_rules` is non-empty and that
`action_name` is non-empty and one of `report` / `noop`; when `name` is
falsy (absent or empty) it is derived as `'__'.join(sorted(model_rules.iterkeys()))`
(see `derivedRuleName`).  No validation of the comparators happens here.

`'__'.join(sorted(model_rules.iterkeys()))` of `Rule.__init__`: -/
def derivedRuleName (model_rules : List ModelPred) : String :=
  String.intercalate "__"
    ((model_rules.map Prod.fst).mergeSort (fun a b => decide (a ≤ b)))

/-- The `name` finally stored on the rule: the given one when truthy,
otherwise the auto-derived one. -/
def ruleFinalName (name : Option String) (model_rules : List ModelPred) :
    String :=
  match name with
  | none => derivedRuleName model_rules
  | some n => if n = "" then derivedRuleName model_rules else n

def Rule.init (name : Option String) (model_rules : List ModelPred)
    (comment_feature_rules : List FeatureRule) (action_name : String)
    (report_reason : Option String) : Except String Rule :=
  if model_rules.isEmpty then .error "No model thresholds provided"
  else if action_name = "" then .error "No action_name provided"
  else if action_name ≠ REPORT_ACTION ∧ action_name ≠ NOOP_ACTION then
    .error "action_name not supported"
  else
    .ok (Rule.mk (ruleFinalName name model_rules) model_rules
      comment_feature_rules action_name report_reason)

/-- One entry of the `rules` list of the YAML config file, as read by
`config.load_rules` (`r.get('name')`, `r['perspective_score']` — already
in parsed `ModelPred` form, see `ModelPred` — `r.get('comment_features',
{})`, `r['action']`, `r.get('report_reason')`). -/
structure RuleConfig where
  name : Option String
  perspective_score : List ModelPred
  comment_features : List FeatureRule
  action : String
  report_reason : Option String

/-- The rule-construction loop of `config.load_rules`: builds each
`Rule`, stopping at the first construction error. -/
def loadRulesGo : List RuleConfig → Except String (List Rule)
  | [] => .ok []
  | rc :: rest => do
    let r ← Rule.init rc.name rc.perspective_score rc.comment_features
      rc.action rc.report_reason
    let rs ← loadRulesGo rest
    pure (r :: rs)

/-- `config.load_rules`: constructs the rules, asserts the list is
non-empty (`'Rules file empty!'`), rejects duplicate rule names
(`len(xs) != len(set(xs))`, embedded as `¬ List.Nodup`), and returns the
rules together with the set of all models the rules mention. -/
def load_rules (rules_config : List RuleConfig) :
    Except String (List Rule × Finset String) := do
  let rules ← loadRulesGo rules_config
  if rules.isEmpty then .error "Rules file empty"
  else if (rules.map Rule.name).Nodup then
    .ok (rules, rules_config.foldl
      (fun s rc => s ∪ (rc.perspective_score.map Prod.fst).toFinset) ∅)
  else .error "Duplicate rule names"

/-- The concrete rule configuration used to refute C8: a single rule
whose comparator is `>=`, which `{>, <}` does not contain. -/
def badComparatorConfig : RuleConfig :=
  RuleConfig.mk (some "r1") [("TOXICITY", ">=", (9:ℚ))] [] "report" none

/-- C8 counterexample: the claim says a comparator outside `{>, <}` is
rejected while loading the config, and that `check_model_rules` never
raises a comparator error on a successfully loaded rule set.  In the
code neither `load_rules` nor `Rule.__init__` inspects the comparator:
the `>=` rule below loads successfully, and evaluating it raises the
comparator `ValueError` — at evaluation time. -/
theorem claim_C8_counterexample :
    (load_rules [badComparatorConfig]).map Prod.fst
      = .ok [Rule.mk "r1" [("TOXICITY", ">=", (9:ℚ))] [] "report" none]
    ∧ (Rule.mk "r1" [("TOXICITY", ">=", (9:ℚ))] [] "report" none).check_model_rules
        [("TOXICITY", (5:ℚ))] (Comment.mk "L" "L")
      = .error (.badComparator ">=") :=
  ⟨rfl, rfl⟩

/-- C8 amended: comparator validation happens at evaluation time, not
load time.  `Rule.__init__` accepts any comparator string (provided the
other construction checks pass), and `check_model_rules` raises the
comparator `ValueError` when the offending predicate is reached: all
predicates before it evaluate to `true` and its model has a score. -/
theorem claim_C8_comparator_error_at_eval_time
    (nm : Option String) (pre rest : List ModelPred) (feats : List FeatureRule)
    (rr : Option String) (act m c : String) (t sc : ℚ)
    (scores : ScoreMap) (comment : Comment)
    (hact : act = REPORT_ACTION ∨ act = NOOP_ACTION)
    (hc1 : c ≠ ">") (hc2 : c ≠ "<")
    (hpre : ∀ p ∈ pre, modelPredHolds scores p = true)
    (hm : scores.lookup m = some sc) :
    ∃ r : Rule, Rule.init nm (pre ++ (m, c, t) :: rest) feats act rr = .ok r
      ∧ r.check_model_rules scores comment = .error (.badComparator c) := by
  have h1 : (pre ++ (m, c, t) :: rest).isEmpty = false := by
    cases pre <;> rfl
  have h2 : ¬ act = "" := by
    rcases hact with h | h <;> subst h <;> decide
  have h3 : ¬ (act ≠ REPORT_ACTION ∧ act ≠ NOOP_ACTION) := by
    rcases hact with h | h
    · exact fun hcon => hcon.1 h
    · exact fun hcon => hcon.2 h
  refine ⟨Rule.mk (ruleFinalName nm (pre ++ (m, c, t) :: rest))
    (pre ++ (m, c, t) :: rest) feats act rr, ?_, ?_⟩
  · simp only [Rule.init, h1, Bool.false_eq_true, if_false, if_neg h2,
      if_neg h3]
  · unfold Rule.check_model_rules
    rw [show (Rule.mk _ (pre ++ (m, c, t) :: rest) feats act rr).model_rules
        = pre ++ (m, c, t) :: rest from rfl]
    rw [checkModelRulesAux_append_of_holds scores pre _ hpre]
    simp [checkModelRulesAux, hm, compareScore, hc1, hc2]

/-- Witness for the amended C8 at a concrete configuration. -/
theorem claim_C8_comparator_error_at_eval_time_witness :
    ∃ r : Rule, Rule.init (some "r1") [("TOXICITY", ">=", (9:ℚ))] [] "report"
        none = .ok r
      ∧ r.check_model_rules [("TOXICITY", (5:ℚ))] (Comment.mk "L" "L")
        = .error (.badComparator ">=") :=
  claim_C8_comparator_error_at_eval_time (some "r1") [] [] [] none "report"
    "TOXICITY" ">=" (9:ℚ) (5:ℚ) [("TOXICITY", (5:ℚ))] (Comment.mk "L" "L")
    (Or.inl rfl) (by decide) (by decide) (by decide) (by decide)

/-! ## moderate_subreddit.py: apply_action -/

/-- The observable external effect of `apply_action`: the argument
passed to `comment.report(...)`, or nothing for `noop`.  Reason strings
are embedded as `List Char` so that character counts are literal. -/
inductive ModAction where
  | report (reason : List Char)
  | noop
deriving DecidableEq

/-- `moderate_subreddit.apply_action`, first half: joins the rule
descriptions with `', '` and truncates to the 100-character reddit limit
(first 97 characters plus `'...'`). -/
def truncateReasons (descriptions : List (List Char)) : List Char :=
  if (List.intercalate (", ".data) descriptions).length > 100 then
    (List.intercalate (", ".data) descriptions).take 97 ++ "...".data
  else
    List.intercalate (", ".data) descriptions

/-- The dispatch of `apply_action` (the truncation above is computed
before the dispatch in the source; it is pure, so it is factored out as
`truncateReasons`). -/
def apply_action (action_name : String) (descriptions : List (List Char)) :
    Except String ModAction :=
  if action_name = "report" then .ok (.report (truncateReasons descriptions))
  else if action_name = "noop" then .ok .noop
  else .error "Action not yet implemented"

/-- C9: report reason truncation.  For every sequence of reason strings,
`apply_action` with the `report` action passes to the external report
call the comma-joined concatenation unchanged when its length is at most
100, and otherwise its first 97 characters followed by `...`; either
way, the string passed has length at most 100. -/
theorem claim_C9_report_reason_truncation (descriptions : List (List Char)) :
    apply_action "report" descriptions
      = .ok (.report (if (List.intercalate (", ".data) descriptions).length ≤ 100
          then List.intercalate (", ".data) descriptions
          else (List.intercalate (", ".data) descriptions).take 97 ++ "...".data))
    ∧ (if (List.intercalate (", ".data) descriptions).length ≤ 100
          then List.intercalate (", ".data) descriptions
          else (List.intercalate (", ".data) descriptions).take 97
            ++ "...".data).length ≤ 100 := by
  have hd : ("...".data).length = 3 := rfl
  have hdisp : apply_action "report" descriptions
      = .ok (.report (truncateReasons descriptions)) := rfl
  constructor
  · rw [hdisp]
    unfold truncateReasons
    by_cases h : (List.intercalate (", ".data) descriptions).length ≤ 100
    · rw [if_neg (by omega), if_pos h]
    · rw [if_pos (by omega), if_neg h]
  · by_cases h : (List.intercalate (", ".data) descriptions).length ≤ 100
    · rw [if_pos h]; exact h
    · rw [if_neg h]
      rw [List.length_append, List.length_take, hd]
      omega

/-! ## check_mod_actions.py: comment status (get_comment_status) -/

/-- A record manipulated by the reconciliation pipeline: a JSON object,
embedded as an insertion-ordered association list. -/
abbrev Record := List (String × Val)

/-- Column-name constants of check_mod_actions.py. -/
def APPROVED_COL : String := "approved"

def REMOVED_COL : String := "removed"

def DELETED_COL : String := "deleted"

def SCORE_COL : String := "score"

def UPS_COL : String := "ups"

def DOWNS_COL : String := "downs"

def SCORE_HIDDEN_COL : String := "score_hidden"

def COLLAPSED_COL : String := "collapsed"

/-- The praw `Comment` attributes read by `get_comment_status`.  The
`approved` / `removed` attributes are the authoritative moderator-level
fields. -/
structure PrawComment where
  author : Option String
  body : String
  score : ℤ
  ups : ℤ
  downs : ℤ
  score_hidden : Bool
  collapsed : Bool
  approved : Bool
  removed : Bool
  id : String

/-- `get_comment_status`: builds the status dict for one comment.
`deleted` is always the `author is None and body == '[deleted]'`
heuristic; with moderator credentials `approved` / `removed` come from
the authoritative fields, otherwise `removed` is the
`author is None and body == '[removed]'` heuristic and no `approved`
key is written.  (The `try/except` wrapper of the source only guards
against attribute errors of the external object, which the embedding's
total record type cannot exhibit.) -/
def get_comment_status (c : PrawComment) (has_mod_creds : Bool) :
    Val × Record :=
  let status : Record :=
    [(DELETED_COL, .bool (c.author.isNone && (c.body == "[deleted]"))),
     (SCORE_COL, .int c.score),
     (UPS_COL, .int c.ups),
     (DOWNS_COL, .int c.downs),
     (SCORE_HIDDEN_COL, .bool c.score_hidden),
     (COLLAPSED_COL, .bool c.collapsed)]
  let status :=
    if has_mod_creds then
      status ++ [(APPROVED_COL, .bool c.approved), (REMOVED_COL, .bool c.removed)]
    else
      status ++ [(REMOVED_COL, .bool (c.author.isNone && (c.body == "[removed]")))]
  (.str c.id, status)

/-- C7: status field semantics by credential level.  For every comment:
`deleted` is true iff the author is absent and the body is the literal
`[deleted]` (at either credential level); with moderator credentials
`approved` and `removed` are the authoritative fields; without them,
`removed` is true iff the author is absent and the body is the literal
`[removed]`, and no `approved` field is present in the result. -/
theorem claim_C7_status_fields_by_credentials (c : PrawComment) :
    ((get_comment_status c true).2.lookup DELETED_COL
        = some (.bool (c.author.isNone && (c.body == "[deleted]"))))
    ∧ ((get_comment_status c false).2.lookup DELETED_COL
        = some (.bool (c.author.isNone && (c.body == "[deleted]"))))
    ∧ ((get_comment_status c true).2.lookup APPROVED_COL
        = some (.bool c.approved))
    ∧ ((get_comment_status c true).2.lookup REMOVED_COL
        = some (.bool c.removed))
    ∧ ((get_comment_status c false).2.lookup REMOVED_COL
        = some (.bool (c.author.isNone && (c.body == "[removed]"))))
    ∧ ((get_comment_status c false).2.lookup APPROVED_COL = none) :=
  ⟨rfl, rfl, rfl, rfl, rfl, rfl⟩

/-! ## check_mod_actions.py: resume skipping (seek_past_ids) -/

/-- Result of `seek_past_ids` on a source log: either the stream is left
positioned at a record (`ok` carries the remaining records), or one of
the two `ValueError`s fires (each carries the `len(ids_to_skip)` and the
`skipped` counter printed in its message). -/
inductive SeekResult where
  | ok (rest : List String)
  | eofError (expected skipped : ℕ)
  | countError (expected skipped : ℕ)
deriving DecidableEq

/-- The loop of `seek_past_ids` (the source log is embedded as the list
of `comment_id` values of its JSON lines; the file-handle position is
the remaining suffix). -/
def seekGo (ids_to_skip : Finset String) : ℕ → List String → SeekResult
  | skipped, [] => .eofError ids_to_skip.card skipped
  | skipped, cid :: rest =>
    if cid ∈ ids_to_skip then seekGo ids_to_skip (skipped + 1) rest
    else if skipped ≠ ids_to_skip.card then
      .countError ids_to_skip.card skipped
    else
      .ok (cid :: rest)

/-- `seek_past_ids`, started with `skipped = 0` at the head of the
log. -/
def seek_past_ids (lines : List String) (ids_to_skip : Finset String) :
    SeekResult :=
  seekGo ids_to_skip 0 lines

theorem seekGo_characterization (ids : Finset String) (lines : List String) :
    ∀ skipped : ℕ, seekGo ids skipped lines
      = (if (lines.dropWhile (fun c => decide (c ∈ ids))).isEmpty then
           .eofError ids.card
             (skipped + (lines.takeWhile (fun c => decide (c ∈ ids))).length)
         else if skipped + (lines.takeWhile (fun c => decide (c ∈ ids))).length
             ≠ ids.card then
           .countError ids.card
             (skipped + (lines.takeWhile (fun c => decide (c ∈ ids))).length)
         else
           .ok (lines.dropWhile (fun c => decide (c ∈ ids)))) := by
  induction lines with
  | nil => intro skipped; simp [seekGo]
  | cons c rest ih =>
    intro skipped
    by_cases hc : c ∈ ids
    · rw [List.takeWhile_cons, List.dropWhile_cons]
      simp only [hc, decide_True, if_true, List.length_cons]
      simp only [seekGo]
      rw [if_pos hc, ih (skipped + 1)]
      have harith : skipped + 1
          + (rest.takeWhile (fun x => decide (x ∈ ids))).length
          = skipped
            + ((rest.takeWhile (fun x => decide (x ∈ ids))).length + 1) := by
        omega
      rw [harith]
    · rw [List.takeWhile_cons, List.dropWhile_cons]
      simp only [hc, decide_False, Bool.false_eq_true, if_false,
        List.length_nil, Nat.add_zero]
      simp only [seekGo]
      rw [if_neg hc]
      by_cases hs : skipped = ids.card
      · rw [if_neg (by omega : ¬ skipped ≠ ids.card)]
        simp [hs]
      · rw [if_pos hs]
        simp [hs]

/-- C2 amended: `seek_past_ids` fully characterized.  Writing `pre` for
the maximal prefix of records whose ids lie in the resume set and `rest`
for the remaining suffix: when the log is exhausted while every record
seen is skippable — including when exactly `|set|` (or more) records
were skipped — it raises the EOF `ValueError`; otherwise it stops at the
first non-skippable record, raising the count `ValueError` when the
number skipped differs from `|set|` and leaving the stream positioned
there (returning the suffix) when it equals `|set|`.  In particular it
never silently skips more or fewer than `|set|` records. -/
theorem claim_C2_seek_exact_or_fatal (lines : List String)
    (ids : Finset String) :
    seek_past_ids lines ids
      = (if (lines.dropWhile (fun c => decide (c ∈ ids))).isEmpty then
           .eofError ids.card (lines.takeWhile (fun c => decide (c ∈ ids))).length
         else if (lines.takeWhile (fun c => decide (c ∈ ids))).length ≠ ids.card then
           .countError ids.card (lines.takeWhile (fun c => decide (c ∈ ids))).length
         else
           .ok (lines.dropWhile (fun c => decide (c ∈ ids)))) := by
  have h := seekGo_characterization ids lines 0
  simpa [seek_past_ids] using h

/-- Claim C2 exactly as stated, formalised for refutation: the run
either (a) succeeds having skipped exactly `|set|` records, all of them
in the set, stopping at a first record outside the set, or (b) raises an
error only when EOF or a non-skippable record is hit *before* `|set|`
records have been skipped. -/
def seekClaimAsStated (lines : List String) (ids : Finset String) : Bool :=
  match seek_past_ids lines ids with
  | .ok rest =>
      decide ((lines.takeWhile (fun c => decide (c ∈ ids))).length = ids.card)
      && (lines.takeWhile (fun c => decide (c ∈ ids))).all
           (fun c => decide (c ∈ ids))
      && (match rest.head? with
          | some c => decide (c ∉ ids)
          | none => false)
  | .eofError _ skipped => decide (skipped < ids.card)
  | .countError _ skipped => decide (skipped < ids.card)

/-- C2 counterexample: on a log whose records have all been handled
already (here `["1", "2"]` resumed with the set `{"1", "2"}`), the code
skips exactly `|set| = 2` records and *then* raises the EOF
`ValueError` — an error raised although EOF was not reached "before
`|set|` records are skipped", and no positioning at an unseen record
happens; the repository's own test
`test_seek_past_ids_error_reached_eof` pins this behavior. -/
theorem claim_C2_counterexample :
    seek_past_ids ["1", "2"] ({"1", "2"} : Finset String) = .eofError 2 2
    ∧ seekClaimAsStated ["1", "2"] ({"1", "2"} : Finset String) = false := by
  constructor
  · decide
  · decide

/-! ## check_mod_actions.py: wait_until / read_records_with_wait -/

/-- `wait_until`: the single cooperative sleep it performs, as a
duration — `some (target - now)` when `now < time_to_proceed_utc`
(`time.sleep(wait_delta.total_seconds())` for exactly the remaining
duration), `none` when the deadline has already passed (no sleep). -/
def wait_until (now time_to_proceed_utc : ℤ) : Option ℤ :=
  if now < time_to_proceed_utc then some (time_to_proceed_utc - now)
  else none

/-- The `r[timestamp_key]` values of a batch; `none` when a record lacks
the key (a `KeyError` in the source) or holds a non-timestamp value. -/
def batchTimestamps (records : List Record) (timestamp_key : String) :
    Option (List ℤ) :=
  records.mapM (fun r =>
    match r.lookup timestamp_key with
    | some (.int n) => some n
    | _ => none)

/-- `youngest = max(r[timestamp_key] for r in records)` of
`read_records_with_wait` (followed by `strptime`; the `%Y%m%d_%H%M%S`
timestamp format is lexicographically monotone, so taking the maximum
before or after parsing is the same, and timestamps are embedded
directly as instants).  `none` when the batch is empty (`max()` on an
empty sequence raises). -/
def batchYoungest (records : List Record) (timestamp_key : String) :
    Option ℤ :=
  (batchTimestamps records timestamp_key).bind (fun ts => ts.max?)

/-- The per-batch body of `read_records_with_wait`: the sleep performed
(via `wait_until (create_time_utc + wait_delta)`) before the batch is
yielded to the status lookup. -/
def read_records_with_wait_sleep (records : List Record)
    (timestamp_key : String) (wait_delta now : ℤ) : Option (Option ℤ) :=
  (batchYoungest records timestamp_key).map
    (fun youngest => wait_until now (youngest + wait_delta))

/-- The wall-clock instant after performing an optional sleep. -/
def releaseTime (now : ℤ) (sleep : Option ℤ) : ℤ := now + sleep.getD 0

/-- C5: wait-until-safe.  For every batch with youngest creation
timestamp `y`, the batch is released only after a single cooperative
sleep of exactly the remaining duration up to `y + wait_delta` (no sleep
at all when that deadline has passed), so the wall-clock release instant
is never before `y + wait_delta`. -/
theorem claim_C5_wait_until_safe (records : List Record)
    (timestamp_key : String) (wait_delta now y : ℤ)
    (hy : batchYoungest records timestamp_key = some y) :
    read_records_with_wait_sleep records timestamp_key wait_delta now
      = some (wait_until now (y + wait_delta))
    ∧ wait_until now (y + wait_delta)
      = (if now < y + wait_delta then some (y + wait_delta - now) else none)
    ∧ releaseTime now (wait_until now (y + wait_delta)) ≥ y + wait_delta
    ∧ releaseTime now (wait_until now (y + wait_delta)) ≥ now := by
  refine ⟨by simp [read_records_with_wait_sleep, hy], rfl, ?_, ?_⟩
  · unfold releaseTime wait_until
    by_cases h : now < y + wait_delta
    · rw [if_pos h]
      simp
    · rw [if_neg h]
      simpa using le_of_not_lt h
  · unfold releaseTime wait_until
    by_cases h : now < y + wait_delta
    · rw [if_pos h]
      simp
      omega
    · rw [if_neg h]
      simp

/-- Witness for C5 at a concrete two-record batch. -/
theorem claim_C5_wait_until_safe_witness :
    read_records_with_wait_sleep
        [[("created_utc", Val.int 100)], [("created_utc", Val.int 90)]]
        "created_utc" 86400 50
      = some (wait_until 50 (100 + 86400))
    ∧ wait_until 50 (100 + 86400)
      = (if (50:ℤ) < 100 + 86400 then some (100 + 86400 - 50) else none)
    ∧ releaseTime 50 (wait_until 50 (100 + 86400)) ≥ 100 + 86400
    ∧ releaseTime 50 (wait_until 50 (100 + 86400)) ≥ 50 :=
  claim_C5_wait_until_safe
    [[("created_utc", Val.int 100)], [("created_utc", Val.int 90)]]
    "created_utc" 86400 50 100 (by decide)

/-! ## check_mod_actions.py: batching (read_batches) -/

/-- `_PRAW_BATCH_SIZE` constant of check_mod_actions.py. -/
def _PRAW_BATCH_SIZE : ℕ := 100

/-- What `read_lines` yields into `read_batches`: either a parsed line
or the sentinel object it emits while the stream is idle.  Each yield is
paired with the `datetime.utcnow()` observed by `read_batches` right
after receiving it. -/
inductive LineEvent (α : Type) where
  | line (l : α)
  | sentinel

/-- The loop state of `read_batches`: `current_batch` and
`last_yield_time` (initialized to the `utcnow()` at entry). -/
structure BatchState (α : Type) where
  current_batch : List α
  last_yield_time : ℤ

/-- The batch after the append step of one iteration
(`if line is not sentinel: current_batch.append(line)`). -/
def appendedBatch (st : BatchState α) : LineEvent α → List α
  | .line l => st.current_batch ++ [l]
  | .sentinel => st.current_batch

/-- The flush condition of `read_batches`:
`current_batch and (len(current_batch) == _PRAW_BATCH_SIZE or now - last_yield_time > max_batch_delay)`. -/
def flushDue (max_batch_delay : ℤ) (cb : List α) (last_yield_time now : ℤ) :
    Bool :=
  !cb.isEmpty
    && (cb.length == _PRAW_BATCH_SIZE
        || decide (now - last_yield_time > max_batch_delay))

/-- One iteration of the `read_batches` loop: returns the next state and
the batch yielded by this iteration, if any. -/
def readBatchesStep (max_batch_delay : ℤ) (st : BatchState α)
    (ev : LineEvent α × ℤ) : BatchState α × Option (List α) :=
  if flushDue max_batch_delay (appendedBatch st ev.1) st.last_yield_time ev.2
  then (BatchState.mk [] ev.2, some (appendedBatch st ev.1))
  else (BatchState.mk (appendedBatch st ev.1) st.last_yield_time, none)

/-- The `read_batches` loop over the events produced by `read_lines`,
including the final `if current_batch: yield current_batch` flush after
`read_lines` exits (reachable with `stop_at_eof`). -/
def readBatchesGo (max_batch_delay : ℤ) (st : BatchState α) :
    List (LineEvent α × ℤ) → List (List α)
  | [] => if st.current_batch.isEmpty then [] else [st.current_batch]
  | ev :: evs =>
    match readBatchesStep max_batch_delay st ev with
    | (st', some b) => b :: readBatchesGo max_batch_delay st' evs
    | (st', none) => readBatchesGo max_batch_delay st' evs

/-- `read_batches`, started with an empty batch at `start_time`. -/
def read_batches (events : List (LineEvent α × ℤ))
    (start_time max_batch_delay : ℤ) : List (List α) :=
  readBatchesGo max_batch_delay (BatchState.mk [] start_time) events

/-- The lines carried by an event trace, in order (sentinels dropped). -/
def linesOf : List (LineEvent α × ℤ) → List α
  | [] => []
  | (.line l, _) :: evs => l :: linesOf evs
  | (.sentinel, _) :: evs => linesOf evs

theorem readBatchesGo_join (delay : ℤ) (events : List (LineEvent α × ℤ)) :
    ∀ st : BatchState α,
      (readBatchesGo delay st events).flatten = st.current_batch ++ linesOf events := by
  induction events with
  | nil =>
    intro st
    by_cases h : st.current_batch.isEmpty
    · rw [List.isEmpty_iff] at h
      simp [readBatchesGo, h, linesOf]
    · rw [readBatchesGo, if_neg (by simp [h])]
      simp [linesOf]
  | cons ev evs ih =>
    intro st
    obtain ⟨e, now⟩ := ev
    by_cases h : flushDue delay (appendedBatch st e) st.last_yield_time now
      = true
    · rw [readBatchesGo]
      rw [show readBatchesStep delay st (e, now)
          = (BatchState.mk [] now, some (appendedBatch st e)) from by
        simp [readBatchesStep, h]]
      cases e <;>
        simp [List.flatten, ih, appendedBatch, linesOf]
    · rw [readBatchesGo]
      rw [show readBatchesStep delay st (e, now)
          = (BatchState.mk (appendedBatch st e) st.last_yield_time, none) from by
        simp [readBatchesStep, h]]
      cases e <;>
        simp [ih, appendedBatch, linesOf]

theorem readBatchesGo_length_le (delay : ℤ) (events : List (LineEvent α × ℤ)) :
    ∀ st : BatchState α, st.current_batch.length < _PRAW_BATCH_SIZE →
      ∀ b ∈ readBatchesGo delay st events, b.length ≤ _PRAW_BATCH_SIZE := by
  induction events with
  | nil =>
    intro st hst b hb
    by_cases h : st.current_batch.isEmpty
    · simp [readBatchesGo, h] at hb
    · rw [readBatchesGo, if_neg (by simp [h])] at hb
      simp at hb
      subst hb
      exact le_of_lt hst
  | cons ev evs ih =>
    intro st hst b hb
    obtain ⟨e, now⟩ := ev
    have hcb : (appendedBatch st e).length ≤ _PRAW_BATCH_SIZE := by
      cases e <;> simp [appendedBatch] <;> omega
    by_cases h : flushDue delay (appendedBatch st e) st.last_yield_time now
      = true
    · rw [readBatchesGo] at hb
      rw [show readBatchesStep delay st (e, now)
          = (BatchState.mk [] now, some (appendedBatch st e)) from by
        simp [readBatchesStep, h]] at hb
      simp only [List.mem_cons] at hb
      rcases hb with hb | hb
      · subst hb; exact hcb
      · exact ih (BatchState.mk [] now) (by simp [_PRAW_BATCH_SIZE]) b hb
    · have hlt : (appendedBatch st e).length < _PRAW_BATCH_SIZE := by
        by_cases he : (appendedBatch st e).isEmpty
        · rw [List.isEmpty_iff] at he
          simp [he, _PRAW_BATCH_SIZE]
        · have hne : ¬ ((appendedBatch st e).length = _PRAW_BATCH_SIZE) := by
            intro hlen
            apply h
            simp [flushDue, he, hlen]
          omega
      rw [readBatchesGo] at hb
      rw [show readBatchesStep delay st (e, now)
          = (BatchState.mk (appendedBatch st e) st.last_yield_time, none) from by
        simp [readBatchesStep, h]] at hb
      exact ih (BatchState.mk (appendedBatch st e) st.last_yield_time) hlt b hb

set_option maxRecDepth 100000 in
/-- C3: dual-trigger batching.  (i) An iteration of `read_batches`
yields a batch exactly when the (appended) batch is non-empty and either
its size has reached `_PRAW_BATCH_SIZE = 100` or more than
`max_batch_delay` has elapsed since the last yield; (ii) every batch
ever emitted has size at most 100; (iii) the emitted batches concatenate
to the input lines in order; (iv) for 250 immediately-available records
(all observed at instant 0, `stop_at_eof` ending the trace) with a 60s
delay, exactly three batches of sizes 100, 100 and 50 are emitted, in
input order, with no delay-based splitting. -/
theorem claim_C3_dual_trigger_batching :
    (∀ (delay : ℤ) (st : BatchState ℕ) (ev : LineEvent ℕ × ℤ),
        (readBatchesStep delay st ev).2.isSome
          = flushDue delay (appendedBatch st ev.1) st.last_yield_time ev.2)
    ∧ (∀ (delay start : ℤ) (events : List (LineEvent ℕ × ℤ)),
        ∀ b ∈ read_batches events start delay, b.length ≤ _PRAW_BATCH_SIZE)
    ∧ (∀ (delay start : ℤ) (events : List (LineEvent ℕ × ℤ)),
        (read_batches events start delay).flatten = linesOf events)
    ∧ ((read_batches
          ((List.range 250).map (fun i => (LineEvent.line i, (0:ℤ)))) 0 60).map
            List.length = [100, 100, 50])
    ∧ ((read_batches
          ((List.range 250).map (fun i => (LineEvent.line i, (0:ℤ)))) 0 60).flatten
        = List.range 250) := by
  refine ⟨?_, ?_, ?_, ?_, ?_⟩
  · intro delay st ev
    by_cases h : flushDue delay (appendedBatch st ev.1) st.last_yield_time ev.2
      = true
    · simp [readBatchesStep, h]
    · simp [readBatchesStep, h]
  · intro delay start events b hb
    exact readBatchesGo_length_le delay events (BatchState.mk [] start)
      (by simp [_PRAW_BATCH_SIZE]) b hb
  · intro delay start events
    simpa using readBatchesGo_join delay events (BatchState.mk [] start)
  · decide
  · decide

/-- Witness for C3: the size bound applied to a concrete one-line trace
(whose single batch is emitted by the final flush). -/
theorem claim_C3_dual_trigger_batching_witness :
    ([1] : List ℕ).length ≤ _PRAW_BATCH_SIZE :=
  claim_C3_dual_trigger_batching.2.1 60 0 [(LineEvent.line 1, 0)] [1]
    (by decide)

/-! ## check_mod_actions.py: status merge (check_mod_actions) -/

/-- Python `d[k] = v` on a JSON record dict: replace the value in place
when the key exists (keeping its position), append otherwise. -/
def setField (r : Record) (k : String) (v : Val) : Record :=
  match r with
  | [] => [(k, v)]
  | (k', v') :: rest =>
    if k' = k then (k', v) :: rest else (k', v') :: setField rest k v

/-- `comment.update(status)`: set each field of `status`, in order. -/
def updateRecord (r : Record) (status : Record) : Record :=
  status.foldl (fun acc kv => setField acc kv.1 kv.2) r

/-- `dict[key] = value` on the `comments_by_id` dict (keys are id
values, values are batch positions standing for the object references
Python stores): replace when present — so with duplicate ids the later
record wins — append otherwise. -/
def dictInsert (d : List (Val × ℕ)) (k : Val) (i : ℕ) : List (Val × ℕ) :=
  match d with
  | [] => [(k, i)]
  | (k', i') :: rest =>
    if k' = k then (k', i) :: rest else (k', i') :: dictInsert rest k i

/-- Key lookup in `comments_by_id` (`comment_id in comments_by_id` /
`comments_by_id[comment_id]`). -/
def dictFind (d : List (Val × ℕ)) (k : Val) : Option ℕ :=
  match d with
  | [] => none
  | (k', i) :: rest => if k' = k then some i else dictFind rest k

/-- `del comments_by_id[comment_id]`: drop the (unique) entry. -/
def dictErase (d : List (Val × ℕ)) (k : Val) : List (Val × ℕ) :=
  match d with
  | [] => []
  | (k', i) :: rest => if k' = k then rest else (k', i) :: dictErase rest k

/-- The dict comprehension `{c[id_key]: c for c in comments}`, walking
the batch in order; `none` embeds the `KeyError` raised when a record
lacks `id_key`. -/
def commentsByIdGo (id_key : String) :
    List Record → ℕ → List (Val × ℕ) → Option (List (Val × ℕ))
  | [], _, d => some d
  | c :: rest, i, d =>
    match c.lookup id_key with
    | none => none
    | some v => commentsByIdGo id_key rest (i + 1) (dictInsert d v i)

def buildCommentsById (comments : List Record) (id_key : String) :
    Option (List (Val × ℕ)) :=
  commentsByIdGo id_key comments 0 []

/-- The `if not comment_id or not status: continue` guard of the status
loop: a status tuple takes effect only when both components are present
and truthy. -/
def validStatus : Option Val × Option Record → Option (Val × Record)
  | (some cid, some st) =>
    if cid.falsy || st.isEmpty then none else some (cid, st)
  | _ => none

/-- The status loop of `check_mod_actions`: for each `(comment_id,
status)` in order, skip falsy tuples; skip ids not in the working dict
(the logged duplicate/unexpected-id case); otherwise merge the status
into the referenced record, stamp `action_checked_utc`, and delete the
id from the dict.  `now` stands for the `now_timestamp()` value. -/
def processStatuses (comments : List Record) (d : List (Val × ℕ))
    (statuses : List (Option Val × Option Record)) (now : Val) :
    List Record :=
  match statuses with
  | [] => comments
  | s :: rest =>
    match validStatus s with
    | none => processStatuses comments d rest now
    | some (cid, st) =>
      match dictFind d cid with
      | none => processStatuses comments d rest now
      | some idx =>
        processStatuses
          (comments.set idx
            (setField (updateRecord (comments.getD idx []) st)
              "action_checked_utc" now))
          (dictErase d cid) rest now

/-- `check_mod_actions` (the merge part; fetching is external): indexes
the batch by id, merges the fetched statuses, and returns the records
appended to the output log — the batch in its original order, merged
records updated in place.  `none` embeds the `KeyError` on a record
without `id_key`. -/
def check_mod_actions (comments : List Record) (id_key : String)
    (statuses : List (Option Val × Option Record)) (now : Val) :
    Option (List Record) :=
  (buildCommentsById comments id_key).map
    (fun d => processStatuses comments d statuses now)

/-- C4 counterexample: the claim says every record of the batch —
reconciled or not — receives an `action_checked_utc` timestamp.  In the
code the timestamp is set only inside the status loop, so a record that
received no status is appended without it: here a one-record batch with
an empty status response is appended unchanged, with no
`action_checked_utc` field. -/
theorem claim_C4_counterexample :
    check_mod_actions [[("comment_id", Val.str "x")]] "comment_id" []
        (Val.str "T")
      = some [[("comment_id", Val.str "x")]]
    ∧ ([("comment_id", Val.str "x")] : Record).lookup "action_checked_utc"
      = none :=
  ⟨rfl, rfl⟩

/-- Specification function: the first valid status of the response
sequence carrying the given id (later ones are the logged-and-skipped
duplicates). -/
def firstStatusFor (statuses : List (Option Val × Option Record))
    (cid : Val) : Option Record :=
  match statuses with
  | [] => none
  | s :: rest =>
    match validStatus s with
    | some (c, st) => if c = cid then some st else firstStatusFor rest cid
    | none => firstStatusFor rest cid

/-- Specification function: merge an optional status into a record and
stamp `action_checked_utc` (the identity when there is no status). -/
def applyStatusTo (fs : Option Record) (now : Val) (c : Record) : Record :=
  match fs with
  | none => c
  | some st => setField (updateRecord c st) "action_checked_utc" now

/-- Specification function: what the merge does to one batch record —
merge the first status bearing its id and stamp `action_checked_utc`,
or leave the record untouched when no status carries its id. -/
def mergeSpec (statuses : List (Option Val × Option Record)) (now : Val)
    (id_key : String) (c : Record) : Record :=
  match c.lookup id_key with
  | none => c
  | some cid => applyStatusTo (firstStatusFor statuses cid) now c

/-- The `c[id_key]` values of the batch, in order (`none` when a record
lacks the key). -/
def recordIds (comments : List Record) (id_key : String) :
    Option (List Val) :=
  comments.mapM (fun c => c.lookup id_key)

/-- Specification function: the id-to-position dict that the
comprehension builds when the ids are distinct. -/
def enumIds : ℕ → List Val → List (Val × ℕ)
  | _, [] => []
  | i0, v :: vs => (v, i0) :: enumIds (i0 + 1) vs

/-- The key of the dict entry holding a given position, if any. -/
def dictKeyOf (d : List (Val × ℕ)) (i : ℕ) : Option Val :=
  match d with
  | [] => none
  | (k, j) :: rest => if j = i then some k else dictKeyOf rest i

/-! ### Dictionary lemmas -/

theorem dictInsert_fresh (d : List (Val × ℕ)) (k : Val) (i : ℕ)
    (h : k ∉ d.map Prod.fst) : dictInsert d k i = d ++ [(k, i)] := by
  induction d with
  | nil => rfl
  | cons p rest ih =>
    obtain ⟨k', i'⟩ := p
    simp only [List.map_cons, List.mem_cons] at h
    push_neg at h
    rw [dictInsert, if_neg (fun he => h.1 he.symm), ih h.2]
    rfl

theorem dictFind_none (d : List (Val × ℕ)) (k : Val)
    (h : dictFind d k = none) : ∀ i : ℕ, (k, i) ∉ d := by
  induction d with
  | nil => simp
  | cons p rest ih =>
    obtain ⟨k', i'⟩ := p
    intro i hmem
    rw [dictFind] at h
    by_cases hk : k' = k
    · rw [if_pos hk] at h; exact Option.noConfusion h
    · rw [if_neg hk] at h
      rcases List.mem_cons.mp hmem with heq | hmem'
      · exact hk (congrArg Prod.fst heq).symm
      · exact ih h i hmem'

theorem dictFind_some_mem (d : List (Val × ℕ)) (k : Val) (i : ℕ)
    (h : dictFind d k = some i) : (k, i) ∈ d := by
  induction d with
  | nil => exact Option.noConfusion h
  | cons p rest ih =>
    obtain ⟨k', i'⟩ := p
    rw [dictFind] at h
    by_cases hk : k' = k
    · rw [if_pos hk] at h
      subst hk
      exact List.mem_cons.mpr (Or.inl (by simpa using (Option.some.inj h).symm))
    · rw [if_neg hk] at h
      exact List.mem_cons.mpr (Or.inr (ih h))

theorem dictKeyOf_some_mem (d : List (Val × ℕ)) (i : ℕ) (k : Val)
    (h : dictKeyOf d i = some k) : (k, i) ∈ d := by
  induction d with
  | nil => exact Option.noConfusion h
  | cons p rest ih =>
    obtain ⟨k', j'⟩ := p
    rw [dictKeyOf] at h
    by_cases hj : j' = i
    · rw [if_pos hj] at h
      subst hj
      exact List.mem_cons.mpr (Or.inl (by simpa using (Option.some.inj h).symm))
    · rw [if_neg hj] at h
      exact List.mem_cons.mpr (Or.inr (ih h))

theorem dictKeyOf_of_mem (d : List (Val × ℕ)) (k : Val) (i : ℕ)
    (hsnd : (d.map Prod.snd).Nodup) (hmem : (k, i) ∈ d) :
    dictKeyOf d i = some k := by
  induction d with
  | nil => simp at hmem
  | cons p rest ih =>
    obtain ⟨k', j'⟩ := p
    simp only [List.map_cons, List.nodup_cons] at hsnd
    rcases List.mem_cons.mp hmem with heq | hmem'
    · have hk : k = k' := congrArg Prod.fst heq
      have hi : i = j' := congrArg Prod.snd heq
      rw [dictKeyOf, if_pos hi.symm, ← hk]
    · have hj : j' ≠ i := by
        intro hji
        exact hsnd.1 (hji ▸ (List.mem_map.mpr ⟨(k, i), hmem', rfl⟩))
      rw [dictKeyOf, if_neg hj]
      exact ih hsnd.2 hmem'

theorem key_unique_of_nodup (d : List (Val × ℕ)) (k : Val) (i j : ℕ)
    (hfst : (d.map Prod.fst).Nodup) (h1 : (k, i) ∈ d) (h2 : (k, j) ∈ d) :
    i = j := by
  induction d with
  | nil => simp at h1
  | cons p rest ih =>
    obtain ⟨k', i'⟩ := p
    simp only [List.map_cons, List.nodup_cons] at hfst
    rcases List.mem_cons.mp h1 with he1 | hm1 <;>
      rcases List.mem_cons.mp h2 with he2 | hm2
    · rw [show i = i' from congrArg Prod.snd he1,
        show j = i' from congrArg Prod.snd he2]
    · have hkk : k = k' := congrArg Prod.fst he1
      exact absurd (List.mem_map.mpr ⟨(k, j), hm2, hkk⟩) hfst.1
    · have hkk : k = k' := congrArg Prod.fst he2
      exact absurd (List.mem_map.mpr ⟨(k, i), hm1, hkk⟩) hfst.1
    · exact ih hfst.2 hm1 hm2

theorem mem_dictErase (d : List (Val × ℕ)) (k0 k : Val) (i : ℕ)
    (h : (k, i) ∈ dictErase d k0) : (k, i) ∈ d := by
  induction d with
  | nil => simp [dictErase] at h
  | cons p rest ih =>
    obtain ⟨k', i'⟩ := p
    rw [dictErase] at h
    by_cases hk : k' = k0
    · rw [if_pos hk] at h
      exact List.mem_cons.mpr (Or.inr h)
    · rw [if_neg hk] at h
      rcases List.mem_cons.mp h with heq | hmem'
      · exact List.mem_cons.mpr (Or.inl heq)
      · exact List.mem_cons.mpr (Or.inr (ih hmem'))

theorem key_ne_of_mem_dictErase (d : List (Val × ℕ)) (k0 k : Val) (i : ℕ)
    (hfst : (d.map Prod.fst).Nodup) (h : (k, i) ∈ dictErase d k0) :
    k ≠ k0 := by
  induction d with
  | nil => simp [dictErase] at h
  | cons p rest ih =>
    obtain ⟨k', i'⟩ := p
    simp only [List.map_cons, List.nodup_cons] at hfst
    rw [dictErase] at h
    by_cases hk : k' = k0
    · rw [if_pos hk] at h
      intro hkk0
      exact hfst.1 (List.mem_map.mpr ⟨(k, i), h, by rw [hkk0, hk]⟩)
    · rw [if_neg hk] at h
      rcases List.mem_cons.mp h with heq | hmem'
      · have hkk : k = k' := congrArg Prod.fst heq
        rw [hkk]
        exact hk
      · exact ih hfst.2 hmem'

theorem dictErase_sublist (d : List (Val × ℕ)) (k0 : Val) :
    (dictErase d k0).Sublist d := by
  induction d with
  | nil => simp [dictErase]
  | cons p rest ih =>
    obtain ⟨k', i'⟩ := p
    rw [dictErase]
    by_cases hk : k' = k0
    · rw [if_pos hk]
      exact List.sublist_cons_self _ _
    · rw [if_neg hk]
      exact List.Sublist.cons₂ _ ih

theorem dictKeyOf_dictErase (d : List (Val × ℕ)) (k0 : Val) (i : ℕ)
    (h : ∀ j : ℕ, (k0, j) ∈ d → j ≠ i) :
    dictKeyOf (dictErase d k0) i = dictKeyOf d i := by
  induction d with
  | nil => rfl
  | cons p rest ih =>
    obtain ⟨k', j'⟩ := p
    rw [dictErase]
    by_cases hk : k' = k0
    · rw [if_pos hk]
      have hji : j' ≠ i := h j' (by rw [← hk]; exact List.mem_cons_self _ _)
      rw [show dictKeyOf ((k', j') :: rest) i = dictKeyOf rest i from by
        rw [dictKeyOf, if_neg hji]]
    · rw [if_neg hk]
      rw [dictKeyOf, dictKeyOf]
      by_cases hj : j' = i
      · rw [if_pos hj, if_pos hj]
      · rw [if_neg hj, if_neg hj]
        exact ih fun j hj => h j (List.mem_cons_of_mem _ hj)

/-! ### Characterizing the id dict built from a distinct-id batch -/

theorem recordIds_spec (id_key : String) :
    ∀ (comments : List Record) (ids : List Val),
      recordIds comments id_key = some ids →
      ids.length = comments.length
      ∧ ∀ i : ℕ, ids[i]? = comments[i]?.bind (fun c => c.lookup id_key) := by
  intro comments
  induction comments with
  | nil =>
    intro ids h
    rw [show recordIds [] id_key = some [] from rfl] at h
    obtain rfl := Option.some.inj h
    exact ⟨rfl, fun i => by simp⟩
  | cons c rest ih =>
    intro ids h
    rw [recordIds, List.mapM_cons] at h
    cases hl : c.lookup id_key with
    | none => rw [hl] at h; simp at h
    | some v =>
      rw [hl] at h
      cases hr : rest.mapM (fun c => c.lookup id_key) with
      | none => rw [hr] at h; simp at h
      | some vs =>
        rw [hr] at h
        simp only [Option.bind_some, Option.pure_def, Option.bind_eq_bind,
          Option.some_bind] at h
        obtain rfl := Option.some.inj h
        obtain ⟨hlen, hptw⟩ := ih vs hr
        refine ⟨by simpa using hlen, fun i => ?_⟩
        cases i with
        | zero => simpa using hl.symm
        | succ j => simpa using hptw j

theorem commentsByIdGo_spec (id_key : String) :
    ∀ (comments : List Record) (ids : List Val) (i0 : ℕ)
      (acc : List (Val × ℕ)),
      recordIds comments id_key = some ids →
      (acc.map Prod.fst ++ ids).Nodup →
      commentsByIdGo id_key comments i0 acc = some (acc ++ enumIds i0 ids) := by
  intro comments
  induction comments with
  | nil =>
    intro ids i0 acc h _
    rw [show recordIds [] id_key = some [] from rfl] at h
    obtain rfl := Option.some.inj h
    simp [commentsByIdGo, enumIds]
  | cons c rest ih =>
    intro ids i0 acc h hnd
    rw [recordIds, List.mapM_cons] at h
    cases hl : c.lookup id_key with
    | none => rw [hl] at h; simp at h
    | some v =>
      rw [hl] at h
      cases hr : rest.mapM (fun c => c.lookup id_key) with
      | none => rw [hr] at h; simp at h
      | some vs =>
        rw [hr] at h
        simp only [Option.bind_some, Option.pure_def, Option.bind_eq_bind,
          Option.some_bind] at h
        obtain rfl := Option.some.inj h
        rw [commentsByIdGo, hl]
        have hd := List.nodup_append.mp hnd
        have hfresh : v ∉ acc.map Prod.fst :=
          fun hv => hd.2.2 hv (List.mem_cons_self _ _)
        show commentsByIdGo id_key rest (i0 + 1) (dictInsert acc v i0)
          = some (acc ++ enumIds i0 (v :: vs))
        rw [dictInsert_fresh acc v i0 hfresh]
        have hnd' : ((acc ++ [(v, i0)]).map Prod.fst ++ vs).Nodup := by
          rw [List.append_cons] at hnd
          simpa [List.map_append] using hnd
        rw [ih vs (i0 + 1) (acc ++ [(v, i0)]) hr hnd']
        rw [List.append_assoc]
        rfl

theorem enumIds_map_fst : ∀ (i0 : ℕ) (ids : List Val),
    (enumIds i0 ids).map Prod.fst = ids := by
  intro i0 ids
  induction ids generalizing i0 with
  | nil => rfl
  | cons v vs ih => simp [enumIds, ih]

theorem enumIds_map_snd : ∀ (i0 : ℕ) (ids : List Val),
    (enumIds i0 ids).map Prod.snd = List.range' i0 ids.length := by
  intro i0 ids
  induction ids generalizing i0 with
  | nil => rfl
  | cons v vs ih => simp [enumIds, ih, List.range'_succ]

theorem dictKeyOf_enumIds : ∀ (ids : List Val) (i0 j : ℕ),
    dictKeyOf (enumIds i0 ids) (i0 + j) = ids[j]? := by
  intro ids
  induction ids with
  | nil => intro i0 j; simp [enumIds, dictKeyOf]
  | cons v vs ih =>
    intro i0 j
    cases j with
    | zero =>
      rw [Nat.add_zero]
      rw [show enumIds i0 (v :: vs) = (v, i0) :: enumIds (i0 + 1) vs from rfl]
      rw [dictKeyOf, if_pos rfl]
      simp
    | succ j' =>
      rw [show enumIds i0 (v :: vs) = (v, i0) :: enumIds (i0 + 1) vs from rfl]
      rw [dictKeyOf, if_neg (by omega)]
      rw [show i0 + (j' + 1) = (i0 + 1) + j' from by omega, ih (i0 + 1) j']
      simp

theorem processStatuses_length
    (statuses : List (Option Val × Option Record)) :
    ∀ (comments : List Record) (d : List (Val × ℕ)) (now : Val),
      (processStatuses comments d statuses now).length = comments.length := by
  induction statuses with
  | nil => intro comments d now; rfl
  | cons s rest ih =>
    intro comments d now
    cases hv : validStatus s with
    | none =>
      rw [show processStatuses comments d (s :: rest) now
          = processStatuses comments d rest now from by
        rw [processStatuses, hv]]
      exact ih comments d now
    | some p =>
      obtain ⟨cid, st⟩ := p
      have heq0 : processStatuses comments d (s :: rest) now
          = (match dictFind d cid with
             | none => processStatuses comments d rest now
             | some idx =>
               processStatuses
                 (comments.set idx
                   (setField (updateRecord (comments.getD idx []) st)
                     "action_checked_utc" now))
                 (dictErase d cid) rest now) := by
        rw [processStatuses, hv]
      rw [heq0]
      cases hf : dictFind d cid with
      | none => exact ih comments d now
      | some idx =>
        show (processStatuses
            (comments.set idx
              (setField (updateRecord (comments.getD idx []) st)
                "action_checked_utc" now))
            (dictErase d cid) rest now).length = comments.length
        rw [ih _ _ now, List.length_set]

theorem dictKeyOf_eq_none (d : List (Val × ℕ)) (i : ℕ)
    (h : ∀ k : Val, (k, i) ∉ d) : dictKeyOf d i = none := by
  induction d with
  | nil => rfl
  | cons p rest ih =>
    obtain ⟨k', j'⟩ := p
    rw [dictKeyOf]
    rw [if_neg (fun hj => h k' (by rw [← hj]; exact List.mem_cons_self _ _))]
    exact ih fun k hk => h k (List.mem_cons_of_mem _ hk)

theorem key_of_idx_unique (d : List (Val × ℕ)) (k1 k2 : Val) (i : ℕ)
    (hsnd : (d.map Prod.snd).Nodup) (h1 : (k1, i) ∈ d) (h2 : (k2, i) ∈ d) :
    k1 = k2 := by
  induction d with
  | nil => simp at h1
  | cons p rest ih =>
    obtain ⟨k', j'⟩ := p
    simp only [List.map_cons, List.nodup_cons] at hsnd
    rcases List.mem_cons.mp h1 with he1 | hm1 <;>
      rcases List.mem_cons.mp h2 with he2 | hm2
    · rw [show k1 = k' from congrArg Prod.fst he1,
        show k2 = k' from congrArg Prod.fst he2]
    · have hj : i = j' := congrArg Prod.snd he1
      exact absurd (List.mem_map.mpr ⟨(k2, i), hm2, hj⟩) hsnd.1
    · have hj : i = j' := congrArg Prod.snd he2
      exact absurd (List.mem_map.mpr ⟨(k1, i), hm1, hj⟩) hsnd.1
    · exact ih hsnd.2 hm1 hm2

theorem processStatuses_getElem?
    (statuses : List (Option Val × Option Record)) :
    ∀ (comments : List Record) (d : List (Val × ℕ)) (now : Val),
      (d.map Prod.fst).Nodup → (d.map Prod.snd).Nodup →
      ∀ i : ℕ,
        (processStatuses comments d statuses now)[i]?
          = (match dictKeyOf d i with
             | none => comments[i]?
             | some k =>
               comments[i]?.map
                 (fun c => applyStatusTo (firstStatusFor statuses k) now c)) := by
  induction statuses with
  | nil =>
    intro comments d now _ _ i
    show comments[i]? = _
    cases hk : dictKeyOf d i with
    | none => rfl
    | some k =>
      show comments[i]?
        = comments[i]?.map (fun c => applyStatusTo (firstStatusFor [] k) now c)
      cases comments[i]? <;> rfl
  | cons s rest ih =>
    intro comments d now hfst hsnd i
    cases hv : validStatus s with
    | none =>
      rw [show processStatuses comments d (s :: rest) now
          = processStatuses comments d rest now from by
        rw [processStatuses, hv]]
      rw [ih comments d now hfst hsnd i]
      cases hk : dictKeyOf d i with
      | none => rfl
      | some k =>
        show comments[i]?.map
            (fun c => applyStatusTo (firstStatusFor rest k) now c)
          = comments[i]?.map
            (fun c => applyStatusTo (firstStatusFor (s :: rest) k) now c)
        rw [show firstStatusFor (s :: rest) k = firstStatusFor rest k from by
          rw [firstStatusFor, hv]]
    | some p =>
      obtain ⟨cid, st⟩ := p
      have heq0 : processStatuses comments d (s :: rest) now
          = (match dictFind d cid with
             | none => processStatuses comments d rest now
             | some idx =>
               processStatuses
                 (comments.set idx
                   (setField (updateRecord (comments.getD idx []) st)
                     "action_checked_utc" now))
                 (dictErase d cid) rest now) := by
        rw [processStatuses, hv]
      rw [heq0]
      cases hf : dictFind d cid with
      | none =>
        show (processStatuses comments d rest now)[i]? = _
        rw [ih comments d now hfst hsnd i]
        cases hk : dictKeyOf d i with
        | none => rfl
        | some k =>
          have hkmem := dictKeyOf_some_mem d i k hk
          have hne : ¬ cid = k := by
            intro hckk
            exact dictFind_none d cid hf i (hckk ▸ hkmem)
          show comments[i]?.map
              (fun c => applyStatusTo (firstStatusFor rest k) now c)
            = comments[i]?.map
              (fun c => applyStatusTo (firstStatusFor (s :: rest) k) now c)
          rw [show firstStatusFor (s :: rest) k = firstStatusFor rest k from by
            rw [firstStatusFor, hv]
            show (if cid = k then some st else firstStatusFor rest k)
              = firstStatusFor rest k
            rw [if_neg hne]]
      | some idx =>
        show (processStatuses
            (comments.set idx
              (setField (updateRecord (comments.getD idx []) st)
                "action_checked_utc" now))
            (dictErase d cid) rest now)[i]? = _
        have hcidmem := dictFind_some_mem d cid idx hf
        have hfst' : ((dictErase d cid).map Prod.fst).Nodup :=
          hfst.sublist ((dictErase_sublist d cid).map Prod.fst)
        have hsnd' : ((dictErase d cid).map Prod.snd).Nodup :=
          hsnd.sublist ((dictErase_sublist d cid).map Prod.snd)
        rw [ih _ (dictErase d cid) now hfst' hsnd' i]
        by_cases hii : i = idx
        · subst hii
          have hkd : dictKeyOf d i = some cid :=
            dictKeyOf_of_mem d cid i hsnd hcidmem
          have hkd' : dictKeyOf (dictErase d cid) i = none := by
            apply dictKeyOf_eq_none
            intro k hkmem
            have hkd2 := mem_dictErase d cid k i hkmem
            have hne := key_ne_of_mem_dictErase d cid k i hfst hkmem
            exact hne (key_of_idx_unique d k cid i hsnd hkd2 hcidmem)
          rw [hkd, hkd']
          show (comments.set i
              (setField (updateRecord (comments.getD i []) st)
                "action_checked_utc" now))[i]?
            = comments[i]?.map
              (fun c => applyStatusTo (firstStatusFor (s :: rest) cid) now c)
          rw [show firstStatusFor (s :: rest) cid = some st from by
            rw [firstStatusFor, hv]
            show (if cid = cid then some st else firstStatusFor rest cid)
              = some st
            rw [if_pos rfl]]
          rw [List.getElem?_set_self']
          cases hc : comments[i]? with
          | none => rfl
          | some c =>
            have hgd : comments.getD i [] = c := by
              rw [List.getD_eq_getElem?_getD, hc]
              rfl
            rw [hgd]
            rfl
        · rw [List.getElem?_set_ne (fun h => hii h.symm)]
          have hkerase : dictKeyOf (dictErase d cid) i = dictKeyOf d i := by
            apply dictKeyOf_dictErase
            intro j hj hji
            apply hii
            rw [hji] at hj
            exact (key_unique_of_nodup d cid i idx hfst hj hcidmem)
          rw [hkerase]
          cases hk : dictKeyOf d i with
          | none => rfl
          | some k =>
            have hkmem := dictKeyOf_some_mem d i k hk
            have hne : ¬ cid = k := by
              intro hckk
              exact hii (key_unique_of_nodup d cid i idx hfst
                (hckk ▸ hkmem) hcidmem)
            show comments[i]?.map
                (fun c => applyStatusTo (firstStatusFor rest k) now c)
              = comments[i]?.map
                (fun c => applyStatusTo (firstStatusFor (s :: rest) k) now c)
            rw [show firstStatusFor (s :: rest) k = firstStatusFor rest k from by
              rw [firstStatusFor, hv]
              show (if cid = k then some st else firstStatusFor rest k)
                = firstStatusFor rest k
              rw [if_neg hne]]

/-- C4 amended: status merge is by identity, not position.  For every
batch whose records carry pairwise-distinct ids and every
status-response sequence: each record that some valid status addresses
is merged with the *first* such status and stamped `action_checked_utc`
(later statuses with the same id — the logged duplicates — and statuses
whose id matches no batch record are discarded without affecting any
record); records that received no status are appended *unchanged*, with
no `action_checked_utc` field; and the output is the batch in its
original per-batch order. -/
theorem claim_C4_status_merge_by_identity (comments : List Record)
    (id_key : String) (statuses : List (Option Val × Option Record))
    (now : Val) (ids : List Val)
    (hids : recordIds comments id_key = some ids) (hnodup : ids.Nodup) :
    check_mod_actions comments id_key statuses now
      = some (comments.map (mergeSpec statuses now id_key)) := by
  have hbuild : buildCommentsById comments id_key = some (enumIds 0 ids) := by
    have h := commentsByIdGo_spec id_key comments ids 0 [] hids
      (by simpa using hnodup)
    simpa [buildCommentsById] using h
  rw [check_mod_actions, hbuild]
  refine congrArg some ?_
  have hfst : ((enumIds 0 ids).map Prod.fst).Nodup := by
    rw [enumIds_map_fst]; exact hnodup
  have hsnd : ((enumIds 0 ids).map Prod.snd).Nodup := by
    rw [enumIds_map_snd]; exact List.nodup_range' _ _
  apply List.ext_getElem?
  intro i
  rw [processStatuses_getElem? statuses comments (enumIds 0 ids) now hfst
    hsnd i]
  rw [List.getElem?_map]
  have hrec := recordIds_spec id_key comments ids hids
  have hkey : dictKeyOf (enumIds 0 ids) i = ids[i]? := by
    have h := dictKeyOf_enumIds ids 0 i
    simpa using h
  rw [hkey, hrec.2 i]
  cases hc : comments[i]? with
  | none => rfl
  | some c =>
    show (match c.lookup id_key with
          | none => (some c : Option Record)
          | some k =>
            (some c).map (fun x => applyStatusTo (firstStatusFor statuses k) now x))
        = (some c).map (mergeSpec statuses now id_key)
    cases hl : c.lookup id_key with
    | none =>
      show (some c : Option Record) = some (mergeSpec statuses now id_key c)
      rw [show mergeSpec statuses now id_key c = c from by
        rw [mergeSpec, hl]]
    | some cid =>
      show some (applyStatusTo (firstStatusFor statuses cid) now c)
        = some (mergeSpec statuses now id_key c)
      rw [show mergeSpec statuses now id_key c
          = applyStatusTo (firstStatusFor statuses cid) now c from by
        rw [mergeSpec, hl]]

/-- Witness for the amended C4 at a concrete two-record batch: the
status with unknown id `"c"` is discarded, record `"a"` is merged and
stamped, record `"b"` is appended unchanged. -/
theorem claim_C4_status_merge_by_identity_witness :
    check_mod_actions
        [[("comment_id", Val.str "a")], [("comment_id", Val.str "b")]]
        "comment_id"
        [(some (Val.str "c"), some [("removed", Val.bool true)]),
         (some (Val.str "a"), some [("removed", Val.bool false)])]
        (Val.str "T")
      = some ([[("comment_id", Val.str "a")],
               [("comment_id", Val.str "b")]].map
          (mergeSpec
            [(some (Val.str "c"), some [("removed", Val.bool true)]),
             (some (Val.str "a"), some [("removed", Val.bool false)])]
            (Val.str "T") "comment_id")) :=
  claim_C4_status_merge_by_identity
    [[("comment_id", Val.str "a")], [("comment_id", Val.str "b")]]
    "comment_id"
    [(some (Val.str "c"), some [("removed", Val.bool true)]),
     (some (Val.str "a"), some [("removed", Val.bool false)])]
    (Val.str "T") [Val.str "a", Val.str "b"] (by decide) (by decide)
